import Mathlib

/-!
Verification of the binary delta codec interface `src/delta.h`.

The only function implemented in the header is `get_delta_hdr_size`, the
bounded varint decoder used to read the delta header.  It is embedded here
as a pure function on byte lists (`hdrLoop` / `get_delta_hdr_size`).  The
index builder (`create_delta_index`) and the delta builder (`create_delta`)
are only declared in the header; they are modelled from the specification.
-/

namespace BreezyDelta

/-- Embedding of the C expression `(cmd & ~0x80) << i` of src/delta.h line
74: `cmd & ~0x80` is a non-negative int below 128 (here `g`), and the shift
is performed in 32-bit int before the result is converted to the 64-bit
`unsigned long` accumulator (LP64, two's complement): the shifted value is
reduced mod `2^32` and, when its sign bit is set, sign-extended to 64 bits.
For shift counts at or above 32 the C is undefined; the model keeps the
value-mod-`2^32` reading there (every statement proved below only
exercises shifts up to `i = 28`). -/
def int_shift (g i : Nat) : Nat :=
  let v32 := (g <<< i) % 2 ^ 32
  if v32 < 2 ^ 31 then v32 else v32 + (2 ^ 64 - 2 ^ 32)

/-- Embedding of the do-while loop of `get_delta_hdr_size` (src/delta.h,
lines 72-76).  `buf` is the memory the data pointer points into, `p` the
current pointer position, `top` the end pointer, `size` the 64-bit
accumulator and `i` the current shift.  One byte is read unconditionally
per iteration; the byte's low 7 bits are shifted in 32-bit int arithmetic
(`int_shift`) and or-ed into the `unsigned long` accumulator, kept below
`2^64`; the loop continues while the continuation bit of the byte just
read is set and the post-increment pointer is still strictly below
`top`. -/
def hdrLoop (buf : List Nat) (top p size i : Nat) : Nat × Nat :=
  if h : buf.getD p 0 &&& 0x80 ≠ 0 ∧ p + 1 < top then
    hdrLoop buf top (p + 1) ((size ||| int_shift (buf.getD p 0 &&& 0x7f) i) % 2 ^ 64)
      (i + 7)
  else
    ((size ||| int_shift (buf.getD p 0 &&& 0x7f) i) % 2 ^ 64, p + 1)
termination_by top - p
decreasing_by omega

/-- Embedding of `get_delta_hdr_size` (src/delta.h, lines 65-79): decode a
varint starting at position `p` of `buf`, bounded by the end pointer `top`.
Returns the decoded size together with the updated cursor `*datap`. -/
def get_delta_hdr_size (buf : List Nat) (p top : Nat) : Nat × Nat :=
  hdrLoop buf top p 0 0

/-- Modelled from the spec: the varint encoding of §4.3 (the encoder is not
part of src/delta.h).  An unsigned integer is chunked into 7-bit groups,
least significant first; every byte but the last carries the continuation
bit 0x80. -/
def encode_varint (n : Nat) : List Nat :=
  if h : n < 128 then [n] else (n % 128 + 0x80) :: encode_varint (n / 128)
termination_by n
decreasing_by
  exact Nat.div_lt_self (by omega) (by omega)

/-- Modelled from the spec: the block stride `B` of §4.1 (the index builder
is only declared in src/delta.h); the spec suggests 16-byte blocks. -/
def blockSize : Nat := 16

/-- Embedding of `struct source_info` (src/delta.h, lines 9-14): a source
buffer together with its offset inside the aggregate source.  The `size`
field is represented by `buf.length`. -/
structure source_info where
  buf : List Nat
  agg_offset : Nat

/-- Modelled from the spec: the match index of §4.1 (`struct delta_index`
is opaque in src/delta.h and its builder is only declared).  `src` is the
aggregate source content, `entries` maps block content (standing for the
content hash, re-verified at match time) to aggregate-source offsets, and
`src_size` is the aggregate source length. -/
structure delta_index where
  src : List Nat
  entries : List (List Nat × Nat)
  src_size : Nat

/-- Modelled from the spec: §4.1's partition of a source buffer into
consecutive `blockSize`-byte blocks (including a final short block),
each inserted with its offset into the aggregate source. -/
def index_blocks (buf : List Nat) (off : Nat) : List (List Nat × Nat) :=
  if h : buf.isEmpty then []
  else (buf.take blockSize, off) :: index_blocks (buf.drop blockSize) (off + blockSize)
termination_by buf.length
decreasing_by
  simp only [List.isEmpty_iff] at h
  have hpos : 0 < buf.length := List.length_pos.mpr h
  simp only [List.length_drop, blockSize]
  omega

/-- Modelled from the spec: `create_delta_index` (declared at src/delta.h
lines 25-27, implementation not in src).  Per §4.1, the prior index's
aggregate source logically precedes the new buffer; the new buffer's blocks
are inserted at offsets relative to `src.agg_offset` while the prior
entries are kept unchanged. -/
def create_delta_index (src : source_info) (old : Option delta_index) : delta_index :=
  { src := (match old with | some o => o.src | none => []) ++ src.buf
    entries := (match old with | some o => o.entries | none => []) ++
      index_blocks src.buf src.agg_offset
    src_size := src.agg_offset + src.buf.length }

/-- Modelled from the spec: the two delta operations of §3 and §6. -/
inductive DeltaOp where
  | copy (offset length : Nat) : DeltaOp
  | insert (bytes : List Nat) : DeltaOp

/-- Length of the longest common prefix of two byte lists. -/
def commonPrefixLen : List Nat → List Nat → Nat
  | a :: as, b :: bs => if a = b then commonPrefixLen as bs + 1 else 0
  | _, _ => 0

/-- Modelled from the spec: match verification and forward extension of
§4.2 step 3 — verify actual byte equality for `blockSize` bytes at source
offset `o` against the target block at `t`, then extend forward while
source and target bytes continue to agree, bounded by the buffer ends.
Returns 0 when the block verification fails. -/
def match_len (src tgt : List Nat) (o t : Nat) : Nat :=
  if (src.drop o).take blockSize = (tgt.drop t).take blockSize then
    blockSize + commonPrefixLen (src.drop (o + blockSize)) (tgt.drop (t + blockSize))
  else 0

/-- Modelled from the spec: candidate selection of §4.2 step 3 — among all
index entries whose hash (block content) equals the target block, keep the
one with the longest verified extended match, ties breaking toward the
earliest-registered offset. -/
def find_best (entries : List (List Nat × Nat)) (src tgt : List Nat)
    (blk : List Nat) (t : Nat) : Option (Nat × Nat) :=
  entries.foldl (fun best e =>
    if e.1 = blk ∧ (best.elim 0 Prod.snd) < match_len src tgt e.2 t then
      some (e.2, match_len src tgt e.2 t)
    else best) none

/-- Modelled from the spec: flushing a pending literal run as Insert
operations of at most 127 literal bytes each (§4.2 step 5, §6). -/
def flush_insert (p : List Nat) : List DeltaOp :=
  if h : p.isEmpty then []
  else DeltaOp.insert (p.take 127) :: flush_insert (p.drop 127)
termination_by p.length
decreasing_by
  simp only [List.isEmpty_iff] at h
  have hpos : 0 < p.length := List.length_pos.mpr h
  simp only [List.length_drop]
  omega

/-- Modelled from the spec: splitting a matched span into Copy operations
of at most 0x10000 bytes each (§4.2 step 5, §6). -/
def split_copy (o l : Nat) : List DeltaOp :=
  if h : l ≤ 0x10000 then [DeltaOp.copy o l]
  else DeltaOp.copy o 0x10000 :: split_copy (o + 0x10000) (l - 0x10000)
termination_by l
decreasing_by omega

/-- Modelled from the spec: the greedy single pass of §4.2 steps 2-6 over
the target, with an explicit fuel argument bounding the number of loop
steps (each step advances the cursor, so `tgt.length + 1` fuel always
suffices).  State: cursor `t`, pending literal run, operations emitted so
far. -/
def build_loop (idx : delta_index) (tgt : List Nat) :
    Nat → Nat → List Nat → List DeltaOp → List DeltaOp
  | 0, _, pending, acc => acc ++ flush_insert pending
  | fuel + 1, t, pending, acc =>
    if t < tgt.length then
      if tgt.length - t < blockSize then
        acc ++ flush_insert (pending ++ tgt.drop t)
      else
        match find_best idx.entries idx.src tgt ((tgt.drop t).take blockSize) t with
        | some (o, l) =>
            build_loop idx tgt fuel (t + l) []
              (acc ++ flush_insert pending ++ split_copy o l)
        | none =>
            build_loop idx tgt fuel (t + 1) (pending ++ [tgt.getD t 0]) acc
    else acc ++ flush_insert pending

/-- The operation sequence produced for a target buffer. -/
def build_ops (idx : delta_index) (tgt : List Nat) : List DeltaOp :=
  build_loop idx tgt (tgt.length + 1) 0 [] []

/-- Modelled from the spec: the result of a successful delta build — the
header values (source and target size, each varint-encoded in the stream)
and the operation sequence. -/
structure delta_result where
  src_size : Nat
  tgt_size : Nat
  ops : List DeltaOp

/-- Number of bytes of the varint encoding of `n`. -/
def varint_len (n : Nat) : Nat := (encode_varint n).length

/-- 1 if a byte is present (nonzero), else 0; used for the copy opcode's
presence bitmask of §6. -/
def nzbyte (b : Nat) : Nat := if b = 0 then 0 else 1

/-- Modelled from the spec: encoded size in bytes of one operation (§6).
A copy op is 1 opcode byte plus the nonzero little-endian offset bytes and
the nonzero little-endian length bytes, an all-zero length field (0 bytes)
encoding length 0x10000; an insert op is 1 opcode byte plus its literals. -/
def op_size : DeltaOp → Nat
  | .copy o l =>
      1 + (nzbyte (o % 256) + nzbyte (o / 256 % 256) + nzbyte (o / 65536 % 256) +
        nzbyte (o / 16777216 % 256)) +
      (if l = 0x10000 then 0
       else nzbyte (l % 256) + nzbyte (l / 256 % 256) + nzbyte (l / 65536 % 256))
  | .insert bs => 1 + bs.length

/-- Modelled from the spec: total encoded size of a delta stream (§6):
header varints followed by the encoded operations. -/
def delta_encoded_size (d : delta_result) : Nat :=
  varint_len d.src_size + varint_len d.tgt_size + (d.ops.map op_size).sum

/-- Modelled from the spec: `create_delta` (declared at src/delta.h lines
53-56, implementation not in src).  Builds the header and operation stream
for the target; if `max_delta_size` is non-zero and the encoded stream is
larger, no stream is returned (§4.2 step 7 checks the running size after
each appended operation; since the encoded size only grows, this aborts
exactly when the final size exceeds the budget). -/
def create_delta (idx : delta_index) (tgt : List Nat) (max_delta_size : Nat) :
    Option delta_result :=
  let d : delta_result := ⟨idx.src_size, tgt.length, build_ops idx tgt⟩
  if max_delta_size ≠ 0 ∧ max_delta_size < delta_encoded_size d then none else some d

/-! ### Arithmetic helpers for the varint accumulator -/

lemma lor_shift_eq_add (s x i : Nat) (hs : s < 2 ^ i) :
    s ||| (x <<< i) = s + x * 2 ^ i := by
  have h := Nat.mul_add_lt_is_or hs x
  calc s ||| x <<< i = s ||| 2 ^ i * x := by rw [Nat.shiftLeft_eq, Nat.mul_comm]
    _ = 2 ^ i * x ||| s := Nat.or_comm _ _
    _ = 2 ^ i * x + s := h.symm
    _ = s + x * 2 ^ i := by ring

lemma and_0x80_of_lt (n : Nat) (h : n < 128) : n &&& 0x80 = 0 := by
  have h7 : (0x80 : Nat) = 2 ^ 7 := by norm_num
  rw [h7, Nat.and_two_pow, Nat.testBit_lt_two_pow (lt_of_lt_of_le h (by norm_num))]
  simp

lemma and_0x80_of_cont (a : Nat) (h : a < 128) : (a + 0x80) &&& 0x80 ≠ 0 := by
  have h7 : (0x80 : Nat) = 2 ^ 7 := by norm_num
  rw [h7, Nat.add_comm, Nat.and_two_pow, Nat.testBit_two_pow_add_eq,
    Nat.testBit_lt_two_pow (lt_of_lt_of_le h (by norm_num))]
  simp

lemma and_0x7f_eq_mod (n : Nat) : n &&& 0x7f = n % 128 := by
  have h7 : (0x7f : Nat) = 2 ^ 7 - 1 := by norm_num
  rw [h7, Nat.and_pow_two_sub_one_eq_mod]

lemma int_shift_eq (g i : Nat) (h : g * 2 ^ i < 2 ^ 31) : int_shift g i = g <<< i := by
  simp only [int_shift, Nat.shiftLeft_eq]
  rw [Nat.mod_eq_of_lt (lt_trans h (by norm_num)), if_pos h]

/-! ### The varint encoding and its length -/

lemma encode_varint_length_pos (n : Nat) : 0 < (encode_varint n).length := by
  rw [encode_varint.eq_def]
  split <;> simp

lemma encode_varint_of_lt (n : Nat) (h : n < 128) : encode_varint n = [n] := by
  rw [encode_varint.eq_def, dif_pos h]

lemma encode_varint_of_ge (n : Nat) (h : ¬ n < 128) :
    encode_varint n = (n % 128 + 0x80) :: encode_varint (n / 128) := by
  rw [encode_varint.eq_def, dif_neg h]

/-! ### The decode loop on a well-formed encoding -/

lemma hdrLoop_encode :
    ∀ n p s i top (buf : List Nat),
      s < 2 ^ i → s < 2 ^ 31 → n * 2 ^ i < 2 ^ 31 →
      (∀ k, k < (encode_varint n).length →
        buf.getD (p + k) 0 = (encode_varint n).getD k 0) →
      p + (encode_varint n).length ≤ top →
      hdrLoop buf top p s i = (s + n * 2 ^ i, p + (encode_varint n).length) := by
  intro n
  induction n using Nat.strong_induction_on with
  | _ n ih =>
    intro p s i top buf hs hs31 hw henc htop
    by_cases hn : n < 128
    · have hE : encode_varint n = [n] := encode_varint_of_lt n hn
      rw [hE] at henc htop
      have hbyte : buf.getD p 0 = n := by
        have h0 := henc 0 (by simp)
        simpa using h0
      have hsum64 : s + n * 2 ^ i < 2 ^ 64 := by
        have h31 : (2 : Nat) ^ 31 = 2147483648 := by norm_num
        have h64 : (2 : Nat) ^ 64 = 18446744073709551616 := by norm_num
        omega
      rw [hdrLoop.eq_def, dif_neg]
      · rw [hbyte, and_0x7f_eq_mod, Nat.mod_eq_of_lt hn, int_shift_eq n i hw,
          lor_shift_eq_add s n i hs, Nat.mod_eq_of_lt hsum64, hE]
        simp
      · intro hcond
        exact hcond.1 (by rw [hbyte]; exact and_0x80_of_lt n hn)
    · have hE : encode_varint n = (n % 128 + 0x80) :: encode_varint (n / 128) :=
        encode_varint_of_ge n hn
      rw [hE] at henc htop
      have ha : n % 128 < 128 := Nat.mod_lt _ (by omega)
      have hlen : 0 < (encode_varint (n / 128)).length := encode_varint_length_pos _
      have hbyte : buf.getD p 0 = n % 128 + 0x80 := by
        have h0 := henc 0 (by simp)
        simpa using h0
      simp only [List.length_cons] at htop
      rw [hdrLoop.eq_def, dif_pos ⟨by rw [hbyte]; exact and_0x80_of_cont _ ha,
        by omega⟩]
      have hmod : buf.getD p 0 &&& 0x7f = n % 128 := by
        rw [hbyte, and_0x7f_eq_mod, Nat.add_mod_right]
        exact Nat.mod_eq_of_lt ha
      have hgw : n % 128 * 2 ^ i < 2 ^ 31 := by
        have hle : n % 128 * 2 ^ i ≤ n * 2 ^ i :=
          Nat.mul_le_mul_right _ (Nat.mod_le n 128)
        omega
      rw [hmod, int_shift_eq (n % 128) i hgw, lor_shift_eq_add s (n % 128) i hs]
      have hpow : (2 : Nat) ^ (i + 7) = 128 * 2 ^ i := by
        rw [pow_add]; ring
      have hge : 2 ^ (i + 7) ≤ n * 2 ^ i := by
        rw [hpow]
        exact Nat.mul_le_mul_right _ (by omega)
      have hs2 : s + n % 128 * 2 ^ i < 2 ^ (i + 7) := by
        have h1 : s + n % 128 * 2 ^ i < (1 + n % 128) * 2 ^ i := by
          have := Nat.one_mul (2 ^ i)
          calc s + n % 128 * 2 ^ i < 2 ^ i + n % 128 * 2 ^ i := by omega
            _ = (1 + n % 128) * 2 ^ i := by ring
        have h2 : (1 + n % 128) * 2 ^ i ≤ 128 * 2 ^ i :=
          Nat.mul_le_mul_right _ (by omega)
        omega
      have hs231 : s + n % 128 * 2 ^ i < 2 ^ 31 := by omega
      have hs264 : s + n % 128 * 2 ^ i < 2 ^ 64 := by
        have h31 : (2 : Nat) ^ 31 = 2147483648 := by norm_num
        have h64 : (2 : Nat) ^ 64 = 18446744073709551616 := by norm_num
        omega
      rw [Nat.mod_eq_of_lt hs264]
      have henc2 : ∀ k, k < (encode_varint (n / 128)).length →
          buf.getD (p + 1 + k) 0 = (encode_varint (n / 128)).getD k 0 := by
        intro k hk
        have hidx : p + 1 + k = p + (k + 1) := by omega
        rw [hidx]
        have := henc (k + 1) (by simp; omega)
        simpa using this
      have hdiv : n / 128 < n := Nat.div_lt_self (by omega) (by omega)
      have hw2 : n / 128 * 2 ^ (i + 7) < 2 ^ 31 := by
        have hle : n / 128 * 2 ^ (i + 7) ≤ n * 2 ^ i := by
          rw [hpow, ← Nat.mul_assoc]
          exact Nat.mul_le_mul_right _ (by omega)
        omega
      have hrec := ih (n / 128) hdiv (p + 1) (s + n % 128 * 2 ^ i) (i + 7) top buf hs2
        hs231 hw2 henc2 (by omega)
      rw [hrec]
      have hval : s + n % 128 * 2 ^ i + n / 128 * 2 ^ (i + 7) = s + n * 2 ^ i := by
        have hn2 : 128 * (n / 128) + n % 128 = n := Nat.div_add_mod n 128
        have h3 : (2 : Nat) ^ (i + 7) = 2 ^ i * 128 := by rw [pow_add]; ring
        rw [h3]
        nlinarith [hn2]
      rw [hval, hE]
      simp only [List.length_cons]
      congr 1
      omega

/-! ### Cursor behaviour of the decode loop -/

lemma hdrLoop_cursor_gt (buf : List Nat) (top : Nat) :
    ∀ d p s i, top - p ≤ d → p < (hdrLoop buf top p s i).2 := by
  intro d
  induction d with
  | zero =>
    intro p s i hd
    rw [hdrLoop.eq_def]
    split
    · next h => exact absurd h.2 (by omega)
    · exact Nat.lt_succ_self p
  | succ d ih =>
    intro p s i hd
    rw [hdrLoop.eq_def]
    split
    · next h =>
      exact Nat.lt_trans (Nat.lt_succ_self p) (ih (p + 1) _ _ (by omega))
    · exact Nat.lt_succ_self p

lemma hdrLoop_cursor_le (buf : List Nat) (top : Nat) :
    ∀ d p s i, top - p ≤ d → p < top → (hdrLoop buf top p s i).2 ≤ top := by
  intro d
  induction d with
  | zero =>
    intro p s i hd hlt
    exact absurd hlt (by omega)
  | succ d ih =>
    intro p s i hd hlt
    rw [hdrLoop.eq_def]
    split
    · next h => exact ih (p + 1) _ _ (by omega) h.2
    · show p + 1 ≤ top
      omega

lemma hdrLoop_frame (buf buf2 : List Nat) (top : Nat) :
    ∀ d p s i, top - p ≤ d → p < top →
      (∀ q, p ≤ q → q < top → buf.getD q 0 = buf2.getD q 0) →
      hdrLoop buf top p s i = hdrLoop buf2 top p s i := by
  intro d
  induction d with
  | zero =>
    intro p s i hd hlt _
    exact absurd hlt (by omega)
  | succ d ih =>
    intro p s i hd hlt hag
    have hb : buf.getD p 0 = buf2.getD p 0 := hag p le_rfl hlt
    conv_lhs => rw [hdrLoop.eq_def]
    conv_rhs => rw [hdrLoop.eq_def]
    rw [hb]
    by_cases hc : buf2.getD p 0 &&& 0x80 ≠ 0 ∧ p + 1 < top
    · rw [dif_pos hc, dif_pos hc]
      exact ih (p + 1) _ _ (by omega) hc.2 (fun q hq hqt => hag q (by omega) hqt)
    · rw [dif_neg hc, dif_neg hc]

lemma hdrLoop_all_cont (buf : List Nat) (top : Nat) :
    ∀ d p s i, top - p ≤ d → p < top →
      (∀ q, p ≤ q → q < top → buf.getD q 0 &&& 0x80 ≠ 0) →
      (hdrLoop buf top p s i).2 = top := by
  intro d
  induction d with
  | zero =>
    intro p s i hd hlt _
    exact absurd hlt (by omega)
  | succ d ih =>
    intro p s i hd hlt hall
    have hbit := hall p le_rfl hlt
    rw [hdrLoop.eq_def]
    split
    · next h => exact ih (p + 1) _ _ (by omega) h.2 (fun q hq hqt => hall q (by omega) hqt)
    · next h =>
      have hnot : ¬ p + 1 < top := fun hb => h ⟨hbit, hb⟩
      show p + 1 = top
      omega

/-! ### List and operation-stream helpers -/

lemma index_blocks_mem :
    ∀ d (buf : List Nat) (off k : Nat), buf.length ≤ d →
      k * blockSize < buf.length →
      ((buf.drop (k * blockSize)).take blockSize, off + k * blockSize) ∈
        index_blocks buf off := by
  intro d
  induction d with
  | zero =>
    intro buf off k hd hk
    exact absurd hk (by omega)
  | succ d ih =>
    intro buf off k hd hk
    have hBS : blockSize = 16 := rfl
    have hpos : 0 < buf.length := by omega
    rw [index_blocks.eq_def,
      dif_neg (by simp [List.isEmpty_iff]; exact List.length_pos.mp hpos)]
    cases k with
    | zero =>
      simp only [Nat.zero_mul, List.drop_zero, Nat.add_zero]
      exact List.mem_cons_self _ _
    | succ k =>
      apply List.mem_cons_of_mem
      have hk16 : (k + 1) * 16 < buf.length := by rw [hBS] at hk; omega
      have hrec := ih (buf.drop blockSize) (off + blockSize) k
        (by simp only [List.length_drop]; omega)
        (by simp only [List.length_drop, hBS]; omega)
      have hdd : (buf.drop blockSize).drop (k * blockSize) =
          buf.drop ((k + 1) * blockSize) := by
        rw [List.drop_drop]
        congr 1
        ring
      have hoff : off + blockSize + k * blockSize = off + (k + 1) * blockSize := by
        ring
      rw [hdd, hoff] at hrec
      exact hrec

/-! ### Claims about the header varint decoder -/

/-- C1 counterexample: the round-trip fails for `n = 2^31`.  Its encoding
is `[0x80, 0x80, 0x80, 0x80, 0x08]`; decoding it, the fifth byte's group 8
is shifted by `i = 28` in 32-bit int arithmetic, overflowing into the sign
bit and sign-extending into the 64-bit accumulator, so `get_delta_hdr_size`
returns `0xFFFFFFFF80000000`, not `2^31`. -/
theorem C1_counterexample :
    encode_varint (2 ^ 31) = [0x80, 0x80, 0x80, 0x80, 0x08] ∧
    get_delta_hdr_size [0x80, 0x80, 0x80, 0x80, 0x08] 0 5 = (0xFFFFFFFF80000000, 5) ∧
    (0xFFFFFFFF80000000 : Nat) ≠ 2 ^ 31 := by
  refine ⟨?_, ?_, by norm_num⟩
  · rw [encode_varint.eq_def]
    norm_num
    rw [encode_varint.eq_def]
    norm_num
    rw [encode_varint.eq_def]
    norm_num
    rw [encode_varint.eq_def]
    norm_num
    rw [encode_varint.eq_def]
    norm_num
  · rw [get_delta_hdr_size, hdrLoop.eq_def, hdrLoop.eq_def, hdrLoop.eq_def,
      hdrLoop.eq_def, hdrLoop.eq_def]
    decide

/-- C1 (amended): Varint round-trip for values below `2^31` — if a buffer
holds the encoding of `n < 2^31` (7-bit groups, least significant first,
continuation bit on every byte except the last) starting at `p`, and `top`
points past the end of that encoding, then `get_delta_hdr_size` applied at
`p` returns `n` and advances the cursor to exactly the byte following the
encoding.  Below `2^31` every 32-bit int shift of the C code is defined
and exact; at and above it the decoded value diverges
(`C1_counterexample`). -/
theorem C1_varint_roundtrip (n p top : Nat) (buf : List Nat)
    (hn : n < 2 ^ 31)
    (henc : ∀ k, k < (encode_varint n).length →
      buf.getD (p + k) 0 = (encode_varint n).getD k 0)
    (htop : p + (encode_varint n).length ≤ top) :
    get_delta_hdr_size buf p top = (n, p + (encode_varint n).length) := by
  have h := hdrLoop_encode n p 0 0 top buf (by norm_num) (by norm_num)
    (by simpa using hn) henc htop
  simpa [get_delta_hdr_size] using h

theorem C1_witness : get_delta_hdr_size [172, 2] 0 2 = (300, 2) := by
  have hE : encode_varint 300 = [172, 2] := by
    rw [encode_varint.eq_def]
    norm_num
    rw [encode_varint.eq_def]
    norm_num
  have henc : ∀ k, k < (encode_varint 300).length →
      ([172, 2] : List Nat).getD (0 + k) 0 = (encode_varint 300).getD k 0 := by
    rw [hE]
    intro k hk
    simp only [List.length_cons, List.length_nil] at hk
    interval_cases k <;> rfl
  have htop : 0 + (encode_varint 300).length ≤ 2 := by rw [hE]; norm_num
  have h := C1_varint_roundtrip 300 0 2 [172, 2] (by norm_num) henc htop
  rw [hE] at h
  simpa using h

/-- C2 counterexample: on the buffer `[0x80]` with `top = 1`, every byte up
to `top` has the continuation bit set (the varint is truncated), yet
`get_delta_hdr_size` does not report any malformed-input error: it returns
the ordinary size value `(0, 1)`, indistinguishable from decoding the
well-formed buffer `[0x00]`.  The embedded function (like the C original,
whose return type is a plain `unsigned long`) has no error channel at
all. -/
theorem C2_counterexample :
    (([0x80] : List Nat).getD 0 0 &&& 0x80 ≠ 0) ∧
    get_delta_hdr_size [0x80] 0 1 = (0, 1) ∧
    get_delta_hdr_size [0x80] 0 1 = get_delta_hdr_size [0x00] 0 1 := by
  have e1 : get_delta_hdr_size [0x80] 0 1 = (0, 1) := by
    rw [get_delta_hdr_size, hdrLoop.eq_def]
    decide
  have e2 : get_delta_hdr_size [0x00] 0 1 = (0, 1) := by
    rw [get_delta_hdr_size, hdrLoop.eq_def]
    decide
  exact ⟨by decide, e1, e1.trans e2.symm⟩

/-- C2 (amended): when every byte from `p` up to `top` has the continuation
bit set, `get_delta_hdr_size` stops at the end of the buffer — the cursor
ends exactly at `top` — and returns the partially accumulated value as an
ordinary size; no malformed input is reported. -/
theorem C2_truncated_stops_at_top (buf : List Nat) (p top : Nat) (h : p < top)
    (hall : ∀ q, q < top → p ≤ q → buf.getD q 0 &&& 0x80 ≠ 0) :
    (get_delta_hdr_size buf p top).2 = top :=
  hdrLoop_all_cont buf top (top - p) p 0 0 le_rfl h
    (fun q hq hqt => hall q hqt hq)

theorem C2_witness : (get_delta_hdr_size [0x80, 0x80] 0 2).2 = 2 :=
  C2_truncated_stops_at_top [0x80, 0x80] 0 2 (by decide) (by decide)

/-- C3: Bounded decode — with the cursor strictly before `top`, the result
of `get_delta_hdr_size` depends only on the bytes at positions in
`[p, top)` (two memories agreeing there give identical results), and the
updated cursor is at most `top`. -/
theorem C3_bounded_decode (buf buf2 : List Nat) (p top : Nat) (h : p < top)
    (hag : ∀ q, q < top → p ≤ q → buf.getD q 0 = buf2.getD q 0) :
    get_delta_hdr_size buf p top = get_delta_hdr_size buf2 p top ∧
    (get_delta_hdr_size buf p top).2 ≤ top :=
  ⟨hdrLoop_frame buf buf2 top (top - p) p 0 0 le_rfl h
      (fun q hq hqt => hag q hqt hq),
   hdrLoop_cursor_le buf top (top - p) p 0 0 le_rfl h⟩

theorem C3_witness :
    get_delta_hdr_size [1, 2] 0 2 = get_delta_hdr_size [1, 2, 9] 0 2 ∧
    (get_delta_hdr_size [1, 2] 0 2).2 ≤ 2 :=
  C3_bounded_decode [1, 2] [1, 2, 9] 0 2 (by decide) (by decide)

/-- C4 counterexample: two-call parsing fails when a header value reaches
`2^31`.  On the stream `encode(5) ++ encode(2^31)` the first call returns
`(5, 1)`, but the second call — decoding the well-formed varint of `2^31` —
returns `0xFFFFFFFF80000000` instead of `2^31`, because the fifth byte's
group is shifted by 28 in 32-bit int arithmetic and sign-extends into the
64-bit accumulator. -/
theorem C4_counterexample :
    encode_varint 5 ++ encode_varint (2 ^ 31) = [5, 0x80, 0x80, 0x80, 0x80, 0x08] ∧
    get_delta_hdr_size [5, 0x80, 0x80, 0x80, 0x80, 0x08] 0 6 = (5, 1) ∧
    get_delta_hdr_size [5, 0x80, 0x80, 0x80, 0x80, 0x08] 1 6 =
      (0xFFFFFFFF80000000, 6) ∧
    (0xFFFFFFFF80000000 : Nat) ≠ 2 ^ 31 := by
  have hE5 : encode_varint 5 = [5] := by
    rw [encode_varint.eq_def]
    norm_num
  have hE31 : encode_varint (2 ^ 31) = [0x80, 0x80, 0x80, 0x80, 0x08] := by
    rw [encode_varint.eq_def]
    norm_num
    rw [encode_varint.eq_def]
    norm_num
    rw [encode_varint.eq_def]
    norm_num
    rw [encode_varint.eq_def]
    norm_num
    rw [encode_varint.eq_def]
    norm_num
  refine ⟨by rw [hE5, hE31]; rfl, ?_, ?_, by norm_num⟩
  · rw [get_delta_hdr_size, hdrLoop.eq_def]
    decide
  · rw [get_delta_hdr_size, hdrLoop.eq_def, hdrLoop.eq_def, hdrLoop.eq_def,
      hdrLoop.eq_def, hdrLoop.eq_def]
    decide

/-- C4 (amended): Two-call header parsing for values below `2^31` —
`get_delta_hdr_size` is a pure function of the buffer, cursor and end
pointer (stateless apart from the returned cursor), so on a stream holding
two well-formed varints of values below `2^31` back to back, a first call
at the stream start returns the first value and leaves the cursor at the
start of the second varint, and a second call there returns the second
value.  At `2^31` and beyond the returned value diverges
(`C4_counterexample`). -/
theorem C4_two_calls (n1 n2 p top : Nat) (buf : List Nat)
    (hn1 : n1 < 2 ^ 31) (hn2 : n2 < 2 ^ 31)
    (h1 : ∀ k, k < (encode_varint n1).length →
      buf.getD (p + k) 0 = (encode_varint n1).getD k 0)
    (h2 : ∀ k, k < (encode_varint n2).length →
      buf.getD (p + (encode_varint n1).length + k) 0 = (encode_varint n2).getD k 0)
    (htop : p + (encode_varint n1).length + (encode_varint n2).length ≤ top) :
    get_delta_hdr_size buf p top = (n1, p + (encode_varint n1).length) ∧
    get_delta_hdr_size buf (p + (encode_varint n1).length) top =
      (n2, p + (encode_varint n1).length + (encode_varint n2).length) := by
  constructor
  · have h := hdrLoop_encode n1 p 0 0 top buf (by norm_num) (by norm_num)
      (by simpa using hn1) h1 (by omega)
    simpa [get_delta_hdr_size] using h
  · have h := hdrLoop_encode n2 (p + (encode_varint n1).length) 0 0 top buf
      (by norm_num) (by norm_num) (by simpa using hn2) h2 htop
    simpa [get_delta_hdr_size] using h

theorem C4_witness :
    get_delta_hdr_size [5, 172, 2] 0 3 = (5, 1) ∧
    get_delta_hdr_size [5, 172, 2] 1 3 = (300, 3) := by
  have hE1 : encode_varint 5 = [5] := by
    rw [encode_varint.eq_def]
    norm_num
  have hE2 : encode_varint 300 = [172, 2] := by
    rw [encode_varint.eq_def]
    norm_num
    rw [encode_varint.eq_def]
    norm_num
  have h1 : ∀ k, k < (encode_varint 5).length →
      ([5, 172, 2] : List Nat).getD (0 + k) 0 = (encode_varint 5).getD k 0 := by
    rw [hE1]
    intro k hk
    simp only [List.length_cons, List.length_nil] at hk
    interval_cases k <;> rfl
  have h2 : ∀ k, k < (encode_varint 300).length →
      ([5, 172, 2] : List Nat).getD (0 + (encode_varint 5).length + k) 0 =
        (encode_varint 300).getD k 0 := by
    rw [hE1, hE2]
    intro k hk
    simp only [List.length_cons, List.length_nil] at hk
    interval_cases k <;> rfl
  have htop : 0 + (encode_varint 5).length + (encode_varint 300).length ≤ 3 := by
    rw [hE1, hE2]
    norm_num
  have h := C4_two_calls 5 300 0 3 [5, 172, 2] (by norm_num) (by norm_num) h1 h2 htop
  rw [hE1, hE2] at h
  simpa using h

/-- C7: Decoder termination — modelled as a total function,
`get_delta_hdr_size` always returns; when the cursor starts strictly below
`top`, the cursor strictly advances and never passes `top`, so the loop
performs between 1 and `top - p` iterations and consumes between 1 and
`top - p` bytes regardless of the buffer contents. -/
theorem C7_terminates (buf : List Nat) (p top : Nat) (h : p < top) :
    p < (get_delta_hdr_size buf p top).2 ∧ (get_delta_hdr_size buf p top).2 ≤ top :=
  ⟨hdrLoop_cursor_gt buf top (top - p) p 0 0 le_rfl,
   hdrLoop_cursor_le buf top (top - p) p 0 0 le_rfl h⟩

theorem C7_witness :
    0 < (get_delta_hdr_size [0xFF, 0xFF, 0xFF] 0 3).2 ∧
    (get_delta_hdr_size [0xFF, 0xFF, 0xFF] 0 3).2 ≤ 3 :=
  C7_terminates [0xFF, 0xFF, 0xFF] 0 3 (by decide)

/-- C10: Implicit claim — `get_delta_hdr_size` unconditionally reads and
consumes at least one byte on every call (the cursor result always exceeds
`p`), even when `p` is already at or past `top`; in that case it returns
the low 7 bits of the byte at `p` and the cursor `p + 1`, because the first
byte is read before any bound against `top` is checked. -/
theorem C10_always_reads_one (buf : List Nat) (p top : Nat) :
    p + 1 ≤ (get_delta_hdr_size buf p top).2 ∧
    (top ≤ p → get_delta_hdr_size buf p top = (buf.getD p 0 &&& 0x7f, p + 1)) := by
  constructor
  · exact hdrLoop_cursor_gt buf top (top - p) p 0 0 le_rfl
  · intro hle
    rw [get_delta_hdr_size, hdrLoop.eq_def, dif_neg (fun hc => absurd hc.2 (by omega))]
    have hg : buf.getD p 0 &&& 0x7f < 128 := by
      rw [and_0x7f_eq_mod]
      exact Nat.mod_lt _ (by norm_num)
    have hgs := int_shift_eq (buf.getD p 0 &&& 0x7f) 0
      (by simpa using lt_of_lt_of_le hg (by norm_num))
    rw [hgs, Nat.shiftLeft_zero, Nat.zero_or,
      Nat.mod_eq_of_lt (lt_of_lt_of_le hg (by norm_num))]

theorem C10_witness : get_delta_hdr_size [0xFF] 0 0 = (0x7F, 1) := by
  have h := (C10_always_reads_one [0xFF] 0 0).2 (by omega)
  simpa using h

/-! ### Claims about the delta builder and the match index -/

lemma create_delta_eq (idx : delta_index) (tgt : List Nat) (m : Nat) :
    create_delta idx tgt m =
      if m ≠ 0 ∧ m < delta_encoded_size ⟨idx.src_size, tgt.length, build_ops idx tgt⟩
      then none
      else some ⟨idx.src_size, tgt.length, build_ops idx tgt⟩ := by
  rw [create_delta]

/-- C6: Size cutoff — for every index, target and non-zero budget, if the
encoded stream would be larger than the budget then `create_delta` returns
nothing (no partial or larger-than-requested stream); when the unbounded
encoded size is `N`, budget `N - 1` fails while budget `N` (or the unset
budget 0) succeeds with the stream of exactly `N` encoded bytes. -/
theorem C6_size_cutoff (idx : delta_index) (T : List Nat) :
    (∀ m, m ≠ 0 →
      m < delta_encoded_size ⟨idx.src_size, T.length, build_ops idx T⟩ →
      create_delta idx T m = none) ∧
    create_delta idx T
      (delta_encoded_size ⟨idx.src_size, T.length, build_ops idx T⟩ - 1) = none ∧
    create_delta idx T
      (delta_encoded_size ⟨idx.src_size, T.length, build_ops idx T⟩) =
      some ⟨idx.src_size, T.length, build_ops idx T⟩ ∧
    create_delta idx T 0 = some ⟨idx.src_size, T.length, build_ops idx T⟩ := by
  have hN : 2 ≤ delta_encoded_size ⟨idx.src_size, T.length, build_ops idx T⟩ := by
    have h1 := encode_varint_length_pos idx.src_size
    have h2 := encode_varint_length_pos T.length
    simp only [delta_encoded_size, varint_len]
    omega
  refine ⟨?_, ?_, ?_, ?_⟩
  · intro m hm hlt
    rw [create_delta_eq, if_pos ⟨hm, hlt⟩]
  · rw [create_delta_eq, if_pos ⟨by omega, by omega⟩]
  · rw [create_delta_eq, if_neg (fun hc => absurd hc.2 (by omega))]
  · rw [create_delta_eq, if_neg (fun hc => hc.1 rfl)]

theorem C6_witness :
    create_delta (create_delta_index ⟨[], 0⟩ none) [] 1 = none := by
  have hE0 : encode_varint 0 = [0] := by
    rw [encode_varint.eq_def]
    norm_num
  have hops : build_ops (create_delta_index ⟨[], 0⟩ none) [] = [] := by
    rw [build_ops]
    simp only [build_loop, List.length_nil]
    rw [if_neg (by norm_num), flush_insert.eq_def]
    simp
  have hss : (create_delta_index ⟨[], 0⟩ none).src_size = 0 := by
    simp [create_delta_index]
  have hN : delta_encoded_size ⟨(create_delta_index ⟨[], 0⟩ none).src_size,
      ([] : List Nat).length, build_ops (create_delta_index ⟨[], 0⟩ none) []⟩ = 2 := by
    simp [delta_encoded_size, varint_len, hops, hss, hE0]
  exact (C6_size_cutoff (create_delta_index ⟨[], 0⟩ none) []).1 1 (by norm_num)
    (by rw [hN]; norm_num)

/-- C8: Chained index construction — building an index over `S2` with a
prior index over `S1` keeps every entry of the prior index unchanged (so
matches for `S1`'s blocks are reported at the very offsets of the
standalone `S1` index), and additionally contains every block of `S2` at
an offset expressed relative to `S2`'s `agg_offset`. -/
theorem C8_chained_index (S1 S2 : List Nat) (a1 a2 : Nat) :
    (∀ e, e ∈ (create_delta_index ⟨S1, a1⟩ none).entries →
      e ∈ (create_delta_index ⟨S2, a2⟩ (some (create_delta_index ⟨S1, a1⟩ none))).entries) ∧
    (∀ k, k * blockSize < S1.length →
      ((S1.drop (k * blockSize)).take blockSize, a1 + k * blockSize) ∈
        (create_delta_index ⟨S1, a1⟩ none).entries ∧
      ((S1.drop (k * blockSize)).take blockSize, a1 + k * blockSize) ∈
        (create_delta_index ⟨S2, a2⟩ (some (create_delta_index ⟨S1, a1⟩ none))).entries) ∧
    (∀ k, k * blockSize < S2.length →
      ((S2.drop (k * blockSize)).take blockSize, a2 + k * blockSize) ∈
        (create_delta_index ⟨S2, a2⟩ (some (create_delta_index ⟨S1, a1⟩ none))).entries) := by
  have he1 : (create_delta_index ⟨S1, a1⟩ none).entries = index_blocks S1 a1 := by
    simp [create_delta_index]
  have he12 :
      (create_delta_index ⟨S2, a2⟩ (some (create_delta_index ⟨S1, a1⟩ none))).entries =
      (create_delta_index ⟨S1, a1⟩ none).entries ++ index_blocks S2 a2 := rfl
  refine ⟨?_, ?_, ?_⟩
  · intro e he
    rw [he12]
    exact List.mem_append_left _ he
  · intro k hk
    have hm := index_blocks_mem S1.length S1 a1 k le_rfl hk
    refine ⟨?_, ?_⟩
    · rw [he1]
      exact hm
    · rw [he12, he1]
      exact List.mem_append_left _ hm
  · intro k hk
    rw [he12]
    exact List.mem_append_right _ (index_blocks_mem S2.length S2 a2 k le_rfl hk)

theorem C8_witness :
    ((([1] : List Nat).drop (0 * blockSize)).take blockSize, 0 + 0 * blockSize) ∈
      (create_delta_index ⟨[1], 0⟩ none).entries ∧
    ((([2] : List Nat).drop (0 * blockSize)).take blockSize, 1 + 0 * blockSize) ∈
      (create_delta_index ⟨[2], 1⟩ (some (create_delta_index ⟨[1], 0⟩ none))).entries :=
  ⟨((C8_chained_index [1] [2] 0 1).2.1 0 (by decide)).1,
   (C8_chained_index [1] [2] 0 1).2.2 0 (by decide)⟩

/-- C9: Zero-length source is never an error — the (spec-modelled, total)
index builder always returns an index for an empty source: a degenerate
index with no entries, on which candidate lookup never reports a match;
index construction does not depend on the source's content or size for
success (only allocation can fail in the spec, which the model does not
track). -/
theorem C9_empty_source_index (a : Nat) (tgt blk : List Nat) (t : Nat) :
    (create_delta_index ⟨[], a⟩ none).entries = [] ∧
    find_best (create_delta_index ⟨[], a⟩ none).entries
      (create_delta_index ⟨[], a⟩ none).src tgt blk t = none := by
  have he : (create_delta_index ⟨[], a⟩ none).entries = [] := by
    simp only [create_delta_index, List.nil_append]
    rw [index_blocks.eq_def]
    simp
  exact ⟨he, by rw [he]; rfl⟩

end BreezyDelta
